import Mathlib

/-!
Verification of `src/scripts/refactor_state.py` (VaultSync refactoring helper).

The script holds an ordered table of 25 literal (old, new) replacement pairs,
reads each target file, applies Python `str.replace` for every pair in table
order, and writes the file back only when the content changed.  Failures are
caught per file and logged; the driver skips missing paths.

The embedding below models file contents as `List Char`.  `replaceTok`
mirrors Python `str.replace` (left-to-right, non-overlapping), `containsTok`
mirrors the `in` substring test, `countTok` mirrors `str.count` (the number
of substitutions `str.replace` performs).  The filesystem is a `Disk` record
mapping paths to optional contents together with flags describing whether
reads and writes succeed, so that `process_file` and the driver loop can be
stated as pure functions.
-/

set_option maxHeartbeats 2000000
set_option maxRecDepth 8192

/-- Fuel-indexed scanner behind `replaceAllNE`.  The fuel only makes the
recursion structural (hence kernel-computable); it is irrelevant as soon as
it bounds the length of the scanned list (`replaceFuel_congr`). -/
def replaceFuel (o' : Char) (os new : List Char) : Nat → List Char → List Char
  | _, [] => []
  | 0, s => s
  | fuel + 1, c :: rest =>
    if (o' :: os).isPrefixOf (c :: rest) then
      new ++ replaceFuel o' os new fuel (rest.drop os.length)
    else
      c :: replaceFuel o' os new fuel rest

/-- One step of Python `str.replace` for a nonempty pattern `o' :: os`:
scan left to right, replace each non-overlapping occurrence with `new`.
It satisfies the scanning recurrence `replaceAllNE_cons` below. -/
def replaceAllNE (o' : Char) (os new s : List Char) : List Char :=
  replaceFuel o' os new s.length s

theorem replaceFuel_congr (o' : Char) (os new : List Char) :
    ∀ (f₁ f₂ : Nat) (s : List Char), s.length ≤ f₁ → s.length ≤ f₂ →
      replaceFuel o' os new f₁ s = replaceFuel o' os new f₂ s := by
  intro f₁
  induction f₁ with
  | zero =>
    intro f₂ s h1 _
    have hnil : s = [] := List.eq_nil_of_length_eq_zero (by omega)
    subst hnil
    cases f₂ <;> rfl
  | succ f ih =>
    intro f₂ s h1 h2
    cases s with
    | nil => cases f₂ <;> rfl
    | cons c rest =>
      cases f₂ with
      | zero => simp at h2
      | succ f₂' =>
        show (if (o' :: os).isPrefixOf (c :: rest) then
                new ++ replaceFuel o' os new f (rest.drop os.length)
              else c :: replaceFuel o' os new f rest)
            = (if (o' :: os).isPrefixOf (c :: rest) then
                new ++ replaceFuel o' os new f₂' (rest.drop os.length)
              else c :: replaceFuel o' os new f₂' rest)
        simp only [List.length_cons] at h1 h2
        by_cases hm : (o' :: os).isPrefixOf (c :: rest)
        · rw [if_pos hm, if_pos hm,
            ih f₂' (rest.drop os.length) (by simp [List.length_drop]; omega)
              (by simp [List.length_drop]; omega)]
        · rw [if_neg hm, if_neg hm, ih f₂' rest (by omega) (by omega)]

theorem replaceAllNE_cons (o' : Char) (os new : List Char) (c : Char)
    (rest : List Char) :
    replaceAllNE o' os new (c :: rest)
      = if (o' :: os).isPrefixOf (c :: rest) then
          new ++ replaceAllNE o' os new (rest.drop os.length)
        else
          c :: replaceAllNE o' os new rest := by
  have h1 : replaceAllNE o' os new (c :: rest)
      = if (o' :: os).isPrefixOf (c :: rest) then
          new ++ replaceFuel o' os new rest.length (rest.drop os.length)
        else
          c :: replaceFuel o' os new rest.length rest := rfl
  rw [h1]
  by_cases hm : (o' :: os).isPrefixOf (c :: rest)
  · rw [if_pos hm, if_pos hm]
    unfold replaceAllNE
    rw [replaceFuel_congr o' os new rest.length (rest.drop os.length).length
      (rest.drop os.length) (by simp [List.length_drop]) le_rfl]
  · rw [if_neg hm, if_neg hm]
    unfold replaceAllNE
    rfl

/-- Python `content.replace(old, new)` on `List Char`.  For the (unused in
this script) empty pattern, Python inserts `new` between all characters. -/
def replaceTok (old new s : List Char) : List Char :=
  match old with
  | [] => new ++ (s.map (fun c => c :: new)).flatten
  | o' :: os => replaceAllNE o' os new s

/-- Python substring test `pat in s` on `List Char`. -/
def containsTok (pat : List Char) : List Char → Bool
  | [] => pat.isEmpty
  | c :: rest => pat.isPrefixOf (c :: rest) || containsTok pat rest

/-- Fuel-indexed scanner behind `countOccsNE`; as with `replaceFuel` the
fuel is irrelevant once it bounds the list length. -/
def countFuel (o' : Char) (os : List Char) : Nat → List Char → Nat
  | _, [] => 0
  | 0, _ => 0
  | fuel + 1, c :: rest =>
    if (o' :: os).isPrefixOf (c :: rest) then
      countFuel o' os fuel (rest.drop os.length) + 1
    else
      countFuel o' os fuel rest

/-- Number of non-overlapping occurrences found by the left-to-right scan of
a nonempty pattern (the number of substitutions `str.replace` performs).
It satisfies the scanning recurrence `countOccsNE_cons` below. -/
def countOccsNE (o' : Char) (os s : List Char) : Nat :=
  countFuel o' os s.length s

theorem countFuel_congr (o' : Char) (os : List Char) :
    ∀ (f₁ f₂ : Nat) (s : List Char), s.length ≤ f₁ → s.length ≤ f₂ →
      countFuel o' os f₁ s = countFuel o' os f₂ s := by
  intro f₁
  induction f₁ with
  | zero =>
    intro f₂ s h1 _
    have hnil : s = [] := List.eq_nil_of_length_eq_zero (by omega)
    subst hnil
    cases f₂ <;> rfl
  | succ f ih =>
    intro f₂ s h1 h2
    cases s with
    | nil => cases f₂ <;> rfl
    | cons c rest =>
      cases f₂ with
      | zero => simp at h2
      | succ f₂' =>
        show (if (o' :: os).isPrefixOf (c :: rest) then
                countFuel o' os f (rest.drop os.length) + 1
              else countFuel o' os f rest)
            = (if (o' :: os).isPrefixOf (c :: rest) then
                countFuel o' os f₂' (rest.drop os.length) + 1
              else countFuel o' os f₂' rest)
        simp only [List.length_cons] at h1 h2
        by_cases hm : (o' :: os).isPrefixOf (c :: rest)
        · rw [if_pos hm, if_pos hm,
            ih f₂' (rest.drop os.length) (by simp [List.length_drop]; omega)
              (by simp [List.length_drop]; omega)]
        · rw [if_neg hm, if_neg hm, ih f₂' rest (by omega) (by omega)]

theorem countOccsNE_cons (o' : Char) (os : List Char) (c : Char)
    (rest : List Char) :
    countOccsNE o' os (c :: rest)
      = if (o' :: os).isPrefixOf (c :: rest) then
          countOccsNE o' os (rest.drop os.length) + 1
        else
          countOccsNE o' os rest := by
  have h1 : countOccsNE o' os (c :: rest)
      = if (o' :: os).isPrefixOf (c :: rest) then
          countFuel o' os rest.length (rest.drop os.length) + 1
        else
          countFuel o' os rest.length rest := rfl
  rw [h1]
  by_cases hm : (o' :: os).isPrefixOf (c :: rest)
  · rw [if_pos hm, if_pos hm]
    unfold countOccsNE
    rw [countFuel_congr o' os rest.length (rest.drop os.length).length
      (rest.drop os.length) (by simp [List.length_drop]) le_rfl]
  · rw [if_neg hm, if_neg hm]
    unfold countOccsNE
    rfl

/-- Python `s.count(pat)` on `List Char` (for the empty pattern Python
returns `len(s) + 1`). -/
def countTok (pat s : List Char) : Nat :=
  match pat with
  | [] => s.length + 1
  | o' :: os => countOccsNE o' os s

/-- The replacement table of `refactor_state.py`, in source (dict insertion)
order. -/
def replacements : List (String × String) :=
  [("state.product_service", "state.commerce.product"),
   ("state.inventory_service", "state.commerce.inventory"),
   ("state.pricing_service", "state.commerce.pricing"),
   ("state.transaction_service", "state.commerce.transactions"),
   ("state.buylist_service", "state.commerce.buylist"),
   ("state.holds_service", "state.commerce.holds"),
   ("state.payment_service", "state.commerce.payments"),
   ("state.tax_service", "state.commerce.taxes"),
   ("state.returns_service", "state.commerce.returns"),
   ("state.trade_in_protection_service", "state.commerce.trade_in"),
   ("state.audit_service", "state.system.audit"),
   ("state.event_service", "state.system.events"),
   ("state.barcode_service", "state.system.barcode"),
   ("state.receipt_service", "state.system.receipts"),
   ("state.invoice_service", "state.system.invoices"),
   ("state.label_service", "state.system.labels"),
   ("state.cash_drawer_service", "state.system.cash_drawer"),
   ("state.printer_service", "state.system.printers"),
   ("state.catalog_lookup_service", "state.system.catalog"),
   ("state.serialized_inventory_service", "state.system.serialized"),
   ("state.location_service", "state.system.locations"),
   ("state.reporting_service", "state.system.reporting"),
   ("state.email_service", "state.system.email"),
   ("state.sms_service", "state.system.sms"),
   ("state.notification_scheduler", "state.system.notification_scheduler")]

/-- The loop `for old, new in replacements.items(): new_content =
new_content.replace(old, new)`, over an arbitrary pair list. -/
def applyList (prs : List (String × String)) (s : List Char) : List Char :=
  prs.foldl (fun acc pr => replaceTok pr.1.toList pr.2.toList acc) s

/-- The full substitution pass of `process_file`. -/
def applyReplacements (content : List Char) : List Char :=
  applyList replacements content

/-- Total number of substitutions performed across the pass (each
`str.replace` call substitutes `countTok` occurrences of its pattern in the
working content). -/
def totalRepl (prs : List (String × String)) (s : List Char) : Nat :=
  match prs with
  | [] => 0
  | pr :: rest =>
    countTok pr.1.toList s + totalRepl rest (replaceTok pr.1.toList pr.2.toList s)

/-- Outcome of `open(filepath, 'r', encoding='utf-8'); f.read()`: either the
decoded content or a raised-and-caught error message. -/
inductive ReadOutcome where
  | ok (content : List Char)
  | err (msg : String)
deriving DecidableEq

/-- Model of the filesystem as seen by one run of the script.  `files` maps
an existing path to its content (`none` = the path does not exist);
`readOk`/`readMsg` describe whether opening, reading and decoding the path
succeeds and the exception message when it does not; `writeOk`/`writeMsg`
likewise for opening-for-write and writing; `residue` is whatever content a
failed truncating write leaves behind (unspecified by the program). -/
structure Disk where
  files : String → Option (List Char)
  readOk : String → Bool
  readMsg : String → String
  writeOk : String → Bool
  writeMsg : String → String
  residue : String → List Char

/-- Attempting to open/read/decode `p`: a missing path raises, an existing
path raises when `readOk` is false, otherwise yields the content. -/
def readFile (d : Disk) (p : String) : ReadOutcome :=
  match d.files p with
  | none => .err (d.readMsg p)
  | some c => if d.readOk p then .ok c else .err (d.readMsg p)

/-- The `Processing {filepath}...` line printed on entry. -/
def processingMsg (p : String) : String := "Processing " ++ p ++ "..."

/-- The `Error processing {filepath}: {e}` line of the except branch. -/
def errorMsg (p msg : String) : String := "Error processing " ++ p ++ ": " ++ msg

/-- `process_file(filepath)`: read the file, apply the replacement pass,
write back only when the content changed; any exception is caught and
logged.  Returns the filesystem after the call and the printed lines. -/
def process_file (d : Disk) (p : String) : Disk × List String :=
  match readFile d p with
  | .err msg => (d, [processingMsg p, errorMsg p msg])
  | .ok content =>
    let newContent := applyReplacements content
    if content ≠ newContent then
      if d.writeOk p then
        ({ d with files := fun q => if q = p then some newContent else d.files q },
         [processingMsg p, "Updated " ++ p])
      else
        ({ d with files := fun q => if q = p then some (d.residue p) else d.files q },
         [processingMsg p, errorMsg p (d.writeMsg p)])
    else
      (d, [processingMsg p, "No changes in " ++ p])

/-- The driver loop: `for target in targets: if os.path.exists(target):
process_file(target) else: print("File not found: ...")`. -/
def runTargets (d : Disk) : List String → Disk × List String
  | [] => (d, [])
  | t :: rest =>
    let step :=
      if (d.files t).isSome then process_file d t
      else (d, ["File not found: " ++ t])
    let next := runTargets step.1 rest
    (next.1, step.2 ++ next.2)

/-- One entry returned by `os.listdir(handlers_dir)`: its name, and whether
it is a regular file — information the script never inspects. -/
structure DirEntry where
  name : String
  isFile : Bool
deriving DecidableEq

/-- The one literal extra path in the script's `targets` list. -/
def legacyPath : String := "d:\\Projects\\VaultSync\\src\\api\\handlers_legacy.rs"

/-- The scanned directory. -/
def handlers_dir : String := "d:\\Projects\\VaultSync\\src\\api\\handlers"

/-- `os.path.join(handlers_dir, filename)` for these Windows-style paths. -/
def joinPath (dir name : String) : String := dir ++ "\\" ++ name

/-- Python `filename.endswith(extension)`: a literal suffix test. -/
def strEndsWith (s sfx : String) : Bool := sfx.toList.isSuffixOf s.toList

/-- The `targets` list: the literal path, then every `os.listdir` entry
whose name ends in `.rs`, joined with the directory, in enumeration order. -/
def targets (entries : List DirEntry) : List String :=
  entries.foldl
    (fun acc e => if strEndsWith e.name ".rs" then acc ++ [joinPath handlers_dir e.name] else acc)
    [legacyPath]

/-! ### Basic lemmas about the scanning primitives -/

theorem isPrefixOf_eq_true {l₁ l₂ : List Char} :
    l₁.isPrefixOf l₂ = true ↔ ∃ t, l₂ = l₁ ++ t := by
  rw [ List.isPrefixOf_iff_prefix]
  constructor
  · rintro ⟨t, ht⟩
    exact ⟨t, ht.symm⟩
  · rintro ⟨t, ht⟩
    exact ⟨t, ht.symm⟩

theorem containsTok_nil_pat (s : List Char) : containsTok [] s = true := by
  cases s <;> simp [containsTok]

theorem containsTok_iff (pat : List Char) :
    ∀ s, containsTok pat s = true ↔ ∃ a b, s = a ++ pat ++ b := by
  intro s
  induction s with
  | nil =>
    simp only [containsTok, List.isEmpty_iff]
    constructor
    · intro h
      exact ⟨[], [], by simp [h]⟩
    · rintro ⟨a, b, h⟩
      rcases List.append_eq_nil.mp (List.append_eq_nil.mp h.symm).1 with ⟨-, h2⟩
      exact h2
  | cons c rest ih =>
    simp only [containsTok, Bool.or_eq_true]
    constructor
    · rintro (h | h)
      · rcases isPrefixOf_eq_true.mp h with ⟨t, ht⟩
        exact ⟨[], t, by simp [ht]⟩
      · rcases ih.mp h with ⟨a, b, hab⟩
        exact ⟨c :: a, b, by simp [hab]⟩
    · rintro ⟨a, b, hab⟩
      cases a with
      | nil =>
        left
        exact isPrefixOf_eq_true.mpr ⟨b, by simpa using hab⟩
      | cons c' a' =>
        right
        simp only [List.cons_append, List.cons.injEq] at hab
        exact ih.mpr ⟨a', b, hab.2⟩

theorem containsTok_cons_of (pat : List Char) (c : Char) {t : List Char}
    (h : containsTok pat t = true) : containsTok pat (c :: t) = true := by
  simp [containsTok, h]

theorem containsTok_append_right (pat x : List Char) {t : List Char}
    (h : containsTok pat t = true) : containsTok pat (x ++ t) = true := by
  rcases (containsTok_iff pat t).mp h with ⟨a, b, hab⟩
  exact (containsTok_iff pat (x ++ t)).mpr ⟨x ++ a, b, by simp [hab]⟩

theorem containsTok_self_append (pat x : List Char) :
    containsTok pat (pat ++ x) = true :=
  (containsTok_iff pat (pat ++ x)).mpr ⟨[], x, by simp⟩

theorem replaceAllNE_id (o' : Char) (os n : List Char) :
    ∀ s, containsTok (o' :: os) s = false → replaceAllNE o' os n s = s := by
  intro s
  induction s with
  | nil => intro _; rfl
  | cons c rest ih =>
    intro h
    simp only [containsTok, Bool.or_eq_false_iff] at h
    rw [replaceAllNE_cons, if_neg (by simp [h.1]), ih h.2]

theorem countOccsNE_eq_zero (o' : Char) (os : List Char) :
    ∀ s, containsTok (o' :: os) s = false → countOccsNE o' os s = 0 := by
  intro s
  induction s with
  | nil => intro _; rfl
  | cons c rest ih =>
    intro h
    simp only [containsTok, Bool.or_eq_false_iff] at h
    rw [countOccsNE_cons, if_neg (by simp [h.1])]
    exact ih h.2

theorem not_containsTok_of_countOccsNE_eq_zero (o' : Char) (os : List Char) :
    ∀ s, countOccsNE o' os s = 0 → containsTok (o' :: os) s = false := by
  intro s
  induction s with
  | nil => intro _; simp [containsTok]
  | cons c rest ih =>
    intro h
    rw [countOccsNE_cons] at h
    by_cases hm : (o' :: os).isPrefixOf (c :: rest)
    · rw [if_pos hm] at h
      omega
    · rw [if_neg hm] at h
      simp [containsTok, hm, ih h]

theorem replaceTok_id {old : List Char} (n : List Char) {s : List Char}
    (h : containsTok old s = false) : replaceTok old n s = s := by
  match old with
  | [] => rw [containsTok_nil_pat] at h; cases h
  | o' :: os => exact replaceAllNE_id o' os n s h

theorem countTok_eq_zero {old : List Char} {s : List Char}
    (h : containsTok old s = false) : countTok old s = 0 := by
  match old with
  | [] => rw [containsTok_nil_pat] at h; cases h
  | o' :: os => exact countOccsNE_eq_zero o' os s h

theorem applyList_id (prs : List (String × String)) :
    ∀ s, (∀ pr ∈ prs, containsTok pr.1.toList s = false) → applyList prs s = s := by
  induction prs with
  | nil => intro s _; rfl
  | cons pr rest ih =>
    intro s h
    have h1 : replaceTok pr.1.toList pr.2.toList s = s :=
      replaceTok_id _ (h pr (by simp))
    simp only [applyList, List.foldl_cons, h1]
    exact ih s (fun q hq => h q (by simp [hq]))

theorem totalRepl_eq_zero (prs : List (String × String)) :
    ∀ s, (∀ pr ∈ prs, containsTok pr.1.toList s = false) → totalRepl prs s = 0 := by
  induction prs with
  | nil => intro s _; rfl
  | cons pr rest ih =>
    intro s h
    have h0 : containsTok pr.1.toList s = false := h pr (by simp)
    rw [totalRepl, countTok_eq_zero h0, replaceTok_id _ h0]
    simpa using ih s (fun q hq => h q (by simp [hq]))

/-- If the pattern matches at no position inside the leading block `x`, the
scan passes over `x` untouched. -/
theorem replaceAllNE_split (o' : Char) (os n : List Char) :
    ∀ (x b : List Char),
      (∀ j, j < x.length → (o' :: os).isPrefixOf ((x ++ b).drop j) = false) →
      replaceAllNE o' os n (x ++ b) = x ++ replaceAllNE o' os n b := by
  intro x
  induction x with
  | nil => intro b _; rfl
  | cons c x' ih =>
    intro b h
    have h0 : (o' :: os).isPrefixOf (c :: (x' ++ b)) = false := by
      simpa using h 0 (by simp)
    rw [List.cons_append, replaceAllNE_cons, if_neg (by simp [h0])]
    rw [ih b (fun j hj => by simpa using h (j + 1) (by simpa using hj))]
    simp

/-- A content with a single scan occurrence of the pattern splits around it,
and one `str.replace` call substitutes exactly that occurrence. -/
theorem countOccsNE_one (o' : Char) (os n : List Char) :
    ∀ s, countOccsNE o' os s = 1 →
      ∃ u w, s = u ++ (o' :: os) ++ w ∧
        replaceAllNE o' os n s = u ++ n ++ w ∧
        containsTok (o' :: os) w = false := by
  intro s
  induction s with
  | nil =>
    intro h
    rw [show countOccsNE o' os [] = 0 from rfl] at h
    exact absurd h (by omega)
  | cons c rest ih =>
    intro h
    by_cases hm : (o' :: os).isPrefixOf (c :: rest)
    · rw [countOccsNE_cons, if_pos hm] at h
      have hz : countOccsNE o' os (rest.drop os.length) = 0 := by omega
      have hnc : containsTok (o' :: os) (rest.drop os.length) = false :=
        not_containsTok_of_countOccsNE_eq_zero o' os _ hz
      rcases isPrefixOf_eq_true.mp hm with ⟨t, ht⟩
      have hrest : rest = os ++ t := (by simpa using ht : c = o' ∧ rest = os ++ t).2
      have htd : rest.drop os.length = t := by
        rw [hrest, List.drop_left]
      refine ⟨[], rest.drop os.length, ?_, ?_, by rw [htd]; rw [htd] at hnc; exact hnc⟩
      · simp [htd, ht]
      · rw [replaceAllNE_cons, if_pos hm, replaceAllNE_id o' os n _ hnc]
        simp
    · rw [countOccsNE_cons, if_neg hm] at h
      rcases ih h with ⟨u, w, h1, h2, h3⟩
      refine ⟨c :: u, w, by simp [h1], ?_, h3⟩
      rw [replaceAllNE_cons, if_neg hm, h2]
      simp

/-- Whenever the pattern occurs, the replacement string occurs in the
output of `str.replace`. -/
theorem replaceAllNE_creates (o' : Char) (os n : List Char) :
    ∀ s, containsTok (o' :: os) s = true → containsTok n (replaceAllNE o' os n s) = true := by
  intro s
  induction s with
  | nil => intro h; simp [containsTok] at h
  | cons c rest ih =>
    intro h
    by_cases hm : (o' :: os).isPrefixOf (c :: rest)
    · rw [replaceAllNE_cons, if_pos hm]
      exact containsTok_self_append n _
    · rw [replaceAllNE_cons, if_neg hm]
      simp only [containsTok, Bool.or_eq_true] at h
      rcases h with h | h
      · exact absurd h (by simp [hm])
      · exact containsTok_cons_of n c (ih h)

/-- Preservation: if no nonempty suffix of the pattern is a prefix of `pat`,
no nonempty proper suffix of `pat` is a prefix of the pattern, and neither
contains the other, then occurrences of the pattern can never overlap an
occurrence of `pat`, so one `str.replace` step keeps `pat` present. -/
theorem replaceAllNE_keeps_fuel (o' : Char) (os n pat : List Char)
    (hpat : pat ≠ [])
    (k1 : ∀ i, i < (o' :: os).length → ((o' :: os).drop i).isPrefixOf pat = false)
    (k2 : ∀ j, 1 ≤ j → j < pat.length → (pat.drop j).isPrefixOf (o' :: os) = false)
    (k3 : containsTok (o' :: os) pat = false)
    (k4 : containsTok pat (o' :: os) = false) :
    ∀ (N : Nat) (s : List Char), s.length ≤ N → containsTok pat s = true →
      containsTok pat (replaceAllNE o' os n s) = true := by
  intro N
  induction N with
  | zero =>
    intro s hlen hs
    have hnil : s = [] := List.eq_nil_of_length_eq_zero (by omega)
    subst hnil
    simp only [containsTok, List.isEmpty_iff] at hs
    exact absurd hs hpat
  | succ N ih =>
    intro s hlen hs
    rcases (containsTok_iff pat s).mp hs with ⟨a, b, hab⟩
    cases s with
    | nil =>
      simp only [containsTok, List.isEmpty_iff] at hs
      exact absurd hs hpat
    | cons c rest =>
      by_cases hm : (o' :: os).isPrefixOf (c :: rest)
      · rcases isPrefixOf_eq_true.mp hm with ⟨t, ht⟩
        have hrest : rest = os ++ t := (by simpa using ht : c = o' ∧ rest = os ++ t).2
        have htd : rest.drop os.length = t := by rw [hrest, List.drop_left]
        rw [replaceAllNE_cons, if_pos hm, htd]
        by_cases hlen2 : (o' :: os).length ≤ a.length
        · have h1 : (o' :: os) <+: (c :: rest) := ⟨t, ht.symm⟩
          have h2 : a <+: (c :: rest) := ⟨pat ++ b, by rw [hab]; simp⟩
          rcases List.prefix_of_prefix_length_le h1 h2 hlen2 with ⟨a₂, ha₂⟩
          have htt : t = a₂ ++ pat ++ b := by
            apply @List.append_cancel_left Char (o' :: os)
            rw [← ht, hab, ← ha₂]
            simp
          have hct : containsTok pat t = true :=
            (containsTok_iff pat t).mpr ⟨a₂, b, htt⟩
          have hlt : t.length ≤ N := by
            have : (os ++ t).length = rest.length := by rw [hrest]
            simp only [List.length_append] at this
            simp only [List.length_cons] at hlen
            omega
          exact containsTok_append_right pat n (ih t hlt hct)
        · push_neg at hlen2
          have hdrop : pat ++ b = ((o' :: os).drop a.length) ++ t := by
            have h1 : (a ++ (pat ++ b)).drop a.length = pat ++ b := List.drop_left a _
            have h2 : ((o' :: os) ++ t).drop a.length
                = (o' :: os).drop a.length ++ t := by
              rw [List.drop_append_eq_append_drop,
                  show a.length - (o' :: os).length = 0 by omega, List.drop_zero]
            rw [← h1, show a ++ (pat ++ b) = (o' :: os) ++ t by rw [← List.append_assoc, ← hab, ht], h2]
          by_cases hfits : (o' :: os).length ≤ a.length + pat.length
          · have hlo : ((o' :: os).drop a.length).length ≤ pat.length := by
              simp only [List.length_drop]
              omega
            have h3 : ((o' :: os).drop a.length) <+: (pat ++ b) := ⟨t, hdrop.symm⟩
            have h4 : pat <+: pat ++ b := ⟨b, rfl⟩
            rcases List.prefix_of_prefix_length_le h3 h4 hlo with ⟨r, hr⟩
            have hk1 := k1 a.length (by omega)
            rw [isPrefixOf_eq_true.mpr ⟨r, hr.symm⟩] at hk1
            cases hk1
          · push_neg at hfits
            have hlp : pat.length ≤ ((o' :: os).drop a.length).length := by
              simp only [List.length_drop]
              omega
            have h3 : ((o' :: os).drop a.length) <+: (pat ++ b) := ⟨t, hdrop.symm⟩
            have h4 : pat <+: pat ++ b := ⟨b, rfl⟩
            rcases List.prefix_of_prefix_length_le h4 h3 hlp with ⟨r, hr⟩
            have : containsTok pat (o' :: os) = true := by
              refine (containsTok_iff pat (o' :: os)).mpr
                ⟨(o' :: os).take a.length, r, ?_⟩
              calc o' :: os
                  = (o' :: os).take a.length ++ (o' :: os).drop a.length :=
                    (List.take_append_drop _ _).symm
                _ = (o' :: os).take a.length ++ (pat ++ r) := by rw [hr]
                _ = (o' :: os).take a.length ++ pat ++ r := by rw [List.append_assoc]
            rw [k4] at this
            cases this
      · rw [replaceAllNE_cons, if_neg hm]
        cases a with
        | cons c₀ a' =>
          have hh : c = c₀ ∧ rest = a' ++ pat ++ b := by simpa using hab
          have hcr : containsTok pat rest = true :=
            (containsTok_iff pat rest).mpr ⟨a', b, hh.2⟩
          have hlr : rest.length ≤ N := by
            simp only [List.length_cons] at hlen
            omega
          exact containsTok_cons_of pat c (ih rest hlr hcr)
        | nil =>
          cases pat with
          | nil => exact absurd rfl hpat
          | cons cp pat' =>
            have hh : c = cp ∧ rest = pat' ++ b := by simpa using hab
            have hsplit : replaceAllNE o' os n (pat' ++ b)
                = pat' ++ replaceAllNE o' os n b := by
              apply replaceAllNE_split
              intro j hj
              by_contra hcon
              have hcon' : (o' :: os).isPrefixOf ((pat' ++ b).drop j) = true := by
                cases hval : (o' :: os).isPrefixOf ((pat' ++ b).drop j)
                · exact absurd hval hcon
                · rfl
              have hdj : (pat' ++ b).drop j = pat'.drop j ++ b := by
                rw [List.drop_append_eq_append_drop,
                    show j - pat'.length = 0 by omega, List.drop_zero]
              rcases isPrefixOf_eq_true.mp hcon' with ⟨t, ht⟩
              rw [hdj] at ht
              by_cases hfits : (o' :: os).length ≤ pat'.length - j
              · have h3 : (o' :: os) <+: (pat'.drop j ++ b) := ⟨t, ht.symm⟩
                have h4 : pat'.drop j <+: (pat'.drop j ++ b) := ⟨b, rfl⟩
                rcases List.prefix_of_prefix_length_le h3 h4
                  (by simp only [List.length_drop]; omega) with ⟨r, hr⟩
                have : containsTok (o' :: os) (cp :: pat') = true := by
                  refine (containsTok_iff _ _).mpr ⟨cp :: pat'.take j, r, ?_⟩
                  rw [show (cp :: pat'.take j) ++ (o' :: os) ++ r
                      = cp :: (pat'.take j ++ ((o' :: os) ++ r)) by simp, hr,
                    List.take_append_drop]
                rw [k3] at this
                cases this
              · push_neg at hfits
                have h3 : (o' :: os) <+: (pat'.drop j ++ b) := ⟨t, ht.symm⟩
                have h4 : pat'.drop j <+: (pat'.drop j ++ b) := ⟨b, rfl⟩
                rcases List.prefix_of_prefix_length_le h4 h3
                  (by simp only [List.length_drop]; omega) with ⟨r, hr⟩
                have hk2 := k2 (j + 1) (by omega) (by simp only [List.length_cons]; omega)
                rw [show (cp :: pat').drop (j + 1) = pat'.drop j from rfl,
                    isPrefixOf_eq_true.mpr ⟨r, hr.symm⟩] at hk2
                cases hk2
            rw [hh.2, hsplit, hh.1]
            exact containsTok_self_append (cp :: pat') _

/-- Healing variant of preservation for a tracked string `q ++ [ch]` whose
final character may be consumed by a pattern occurrence: when the
replacement string starts with that same character `ch`, the tracked string
is still present after the `str.replace` step.  Here `k2` exempts the
length-one suffix `[ch]` that the strict preservation lemma would forbid. -/
theorem replaceAllNE_heals_fuel (o' : Char) (os : List Char) (ch : Char) (n' q : List Char)
    (hq : q ≠ [])
    (k1 : ∀ i, i < (o' :: os).length → ((o' :: os).drop i).isPrefixOf (q ++ [ch]) = false)
    (k2 : ∀ j, 1 ≤ j → j < q.length → ((q ++ [ch]).drop j).isPrefixOf (o' :: os) = false)
    (k3 : containsTok (o' :: os) (q ++ [ch]) = false)
    (k4 : containsTok (q ++ [ch]) (o' :: os) = false) :
    ∀ (N : Nat) (s : List Char), s.length ≤ N → containsTok (q ++ [ch]) s = true →
      containsTok (q ++ [ch]) (replaceAllNE o' os (ch :: n') s) = true := by
  have hpat : q ++ [ch] ≠ [] := by simp
  intro N
  induction N with
  | zero =>
    intro s hlen hs
    have hnil : s = [] := List.eq_nil_of_length_eq_zero (by omega)
    subst hnil
    simp only [containsTok, List.isEmpty_iff] at hs
    exact absurd hs hpat
  | succ N ih =>
    intro s hlen hs
    rcases (containsTok_iff (q ++ [ch]) s).mp hs with ⟨a, b, hab⟩
    cases s with
    | nil =>
      simp only [containsTok, List.isEmpty_iff] at hs
      exact absurd hs hpat
    | cons c rest =>
      by_cases hm : (o' :: os).isPrefixOf (c :: rest)
      · rcases isPrefixOf_eq_true.mp hm with ⟨t, ht⟩
        have hrest : rest = os ++ t := (by simpa using ht : c = o' ∧ rest = os ++ t).2
        have htd : rest.drop os.length = t := by rw [hrest, List.drop_left]
        rw [replaceAllNE_cons, if_pos hm, htd]
        by_cases hlen2 : (o' :: os).length ≤ a.length
        · have h1 : (o' :: os) <+: (c :: rest) := ⟨t, ht.symm⟩
          have h2 : a <+: (c :: rest) := ⟨(q ++ [ch]) ++ b, by rw [hab]; simp⟩
          rcases List.prefix_of_prefix_length_le h1 h2 hlen2 with ⟨a₂, ha₂⟩
          have htt : t = a₂ ++ (q ++ [ch]) ++ b := by
            apply @List.append_cancel_left Char (o' :: os)
            rw [← ht, hab, ← ha₂]
            simp
          have hct : containsTok (q ++ [ch]) t = true :=
            (containsTok_iff _ t).mpr ⟨a₂, b, htt⟩
          have hlt : t.length ≤ N := by
            have : (os ++ t).length = rest.length := by rw [hrest]
            simp only [List.length_append] at this
            simp only [List.length_cons] at hlen
            omega
          exact containsTok_append_right _ _ (ih t hlt hct)
        · push_neg at hlen2
          have hdrop : (q ++ [ch]) ++ b = ((o' :: os).drop a.length) ++ t := by
            have h1 : (a ++ ((q ++ [ch]) ++ b)).drop a.length = (q ++ [ch]) ++ b :=
              List.drop_left a _
            have h2 : ((o' :: os) ++ t).drop a.length
                = (o' :: os).drop a.length ++ t := by
              rw [List.drop_append_eq_append_drop,
                  show a.length - (o' :: os).length = 0 by omega, List.drop_zero]
            rw [← h1, show a ++ ((q ++ [ch]) ++ b) = (o' :: os) ++ t by
              rw [← List.append_assoc, ← hab, ht], h2]
          by_cases hfits : (o' :: os).length ≤ a.length + (q ++ [ch]).length
          · have hlo : ((o' :: os).drop a.length).length ≤ (q ++ [ch]).length := by
              simp only [List.length_drop]
              omega
            have h3 : ((o' :: os).drop a.length) <+: ((q ++ [ch]) ++ b) := ⟨t, hdrop.symm⟩
            have h4 : (q ++ [ch]) <+: (q ++ [ch]) ++ b := ⟨b, rfl⟩
            rcases List.prefix_of_prefix_length_le h3 h4 hlo with ⟨r, hr⟩
            have hk1 := k1 a.length (by omega)
            rw [isPrefixOf_eq_true.mpr ⟨r, hr.symm⟩] at hk1
            cases hk1
          · push_neg at hfits
            have hlp : (q ++ [ch]).length ≤ ((o' :: os).drop a.length).length := by
              simp only [List.length_drop]
              omega
            have h3 : ((o' :: os).drop a.length) <+: ((q ++ [ch]) ++ b) := ⟨t, hdrop.symm⟩
            have h4 : (q ++ [ch]) <+: (q ++ [ch]) ++ b := ⟨b, rfl⟩
            rcases List.prefix_of_prefix_length_le h4 h3 hlp with ⟨r, hr⟩
            have : containsTok (q ++ [ch]) (o' :: os) = true := by
              refine (containsTok_iff _ (o' :: os)).mpr
                ⟨(o' :: os).take a.length, r, ?_⟩
              calc o' :: os
                  = (o' :: os).take a.length ++ (o' :: os).drop a.length :=
                    (List.take_append_drop _ _).symm
                _ = (o' :: os).take a.length ++ ((q ++ [ch]) ++ r) := by rw [hr]
                _ = (o' :: os).take a.length ++ (q ++ [ch]) ++ r := by simp
            rw [k4] at this
            cases this
      · rw [replaceAllNE_cons, if_neg hm]
        cases a with
        | cons c₀ a' =>
          have hh : c = c₀ ∧ rest = a' ++ (q ++ [ch]) ++ b := by simpa using hab
          have hcr : containsTok (q ++ [ch]) rest = true :=
            (containsTok_iff _ rest).mpr ⟨a', b, hh.2⟩
          have hlr : rest.length ≤ N := by
            simp only [List.length_cons] at hlen
            omega
          exact containsTok_cons_of _ c (ih rest hlr hcr)
        | nil =>
          cases q with
          | nil => exact absurd rfl hq
          | cons cq q' =>
            have hh : c = cq ∧ rest = q' ++ ([ch] ++ b) := by
              constructor
              · have := hab
                simp only [List.nil_append, List.cons_append, List.cons.injEq] at this
                exact this.1
              · have := hab
                simp only [List.nil_append, List.cons_append, List.cons.injEq,
                  List.append_assoc] at this
                exact this.2
            have hsplit : replaceAllNE o' os (ch :: n') (q' ++ ([ch] ++ b))
                = q' ++ replaceAllNE o' os (ch :: n') ([ch] ++ b) := by
              apply replaceAllNE_split
              intro j hj
              by_contra hcon
              have hcon' : (o' :: os).isPrefixOf ((q' ++ ([ch] ++ b)).drop j) = true := by
                cases hval : (o' :: os).isPrefixOf ((q' ++ ([ch] ++ b)).drop j)
                · exact absurd hval hcon
                · rfl
              have hdj : (q' ++ ([ch] ++ b)).drop j = (q'.drop j ++ [ch]) ++ b := by
                rw [List.drop_append_eq_append_drop,
                    show j - q'.length = 0 by omega, List.drop_zero, List.append_assoc]
              rcases isPrefixOf_eq_true.mp hcon' with ⟨t, ht⟩
              rw [hdj] at ht
              by_cases hfits : (o' :: os).length ≤ (q'.drop j ++ [ch]).length
              · have h3 : (o' :: os) <+: ((q'.drop j ++ [ch]) ++ b) := ⟨t, ht.symm⟩
                have h4 : (q'.drop j ++ [ch]) <+: ((q'.drop j ++ [ch]) ++ b) := ⟨b, rfl⟩
                rcases List.prefix_of_prefix_length_le h3 h4 hfits with ⟨r, hr⟩
                have : containsTok (o' :: os) ((cq :: q') ++ [ch]) = true := by
                  refine (containsTok_iff _ _).mpr ⟨cq :: q'.take j, r, ?_⟩
                  calc (cq :: q') ++ [ch]
                      = (cq :: (q'.take j ++ q'.drop j)) ++ [ch] := by
                        rw [List.take_append_drop]
                    _ = (cq :: q'.take j) ++ (q'.drop j ++ [ch]) := by
                        simp only [List.cons_append, List.cons.injEq, true_and]
                        rw [List.append_assoc]
                    _ = (cq :: q'.take j) ++ ((o' :: os) ++ r) := by rw [hr]
                    _ = (cq :: q'.take j) ++ (o' :: os) ++ r := by simp
                rw [k3] at this
                cases this
              · push_neg at hfits
                have h3 : (o' :: os) <+: ((q'.drop j ++ [ch]) ++ b) := ⟨t, ht.symm⟩
                have h4 : (q'.drop j ++ [ch]) <+: ((q'.drop j ++ [ch]) ++ b) := ⟨b, rfl⟩
                rcases List.prefix_of_prefix_length_le h4 h3 (le_of_lt hfits) with ⟨r, hr⟩
                have hk2 := k2 (j + 1) (by omega)
                  (by simp only [List.length_cons]; omega)
                have hdq : ((cq :: q') ++ [ch]).drop (j + 1) = q'.drop j ++ [ch] := by
                  rw [show ((cq :: q') ++ [ch]).drop (j + 1) = (q' ++ [ch]).drop j by simp,
                      List.drop_append_eq_append_drop,
                      show j - q'.length = 0 by omega, List.drop_zero]
                rw [hdq, isPrefixOf_eq_true.mpr ⟨r, hr.symm⟩] at hk2
                cases hk2
            rw [hh.2, hsplit, hh.1]
            rw [show ([ch] ++ b) = ch :: b from rfl]
            by_cases hm2 : (o' :: os).isPrefixOf (ch :: b)
            · rw [replaceAllNE_cons, if_pos hm2]
              have : cq :: (q' ++ (ch :: n' ++ replaceAllNE o' os (ch :: n') (b.drop os.length)))
                  = ((cq :: q') ++ [ch]) ++ (n' ++ replaceAllNE o' os (ch :: n') (b.drop os.length)) := by
                simp
              rw [this]
              exact containsTok_self_append _ _
            · rw [replaceAllNE_cons, if_neg hm2]
              have : cq :: (q' ++ (ch :: replaceAllNE o' os (ch :: n') b))
                  = ((cq :: q') ++ [ch]) ++ replaceAllNE o' os (ch :: n') b := by
                simp
              rw [this]
              exact containsTok_self_append _ _

/-- Decidable package of the preservation side conditions: both strings
nonempty, no nonempty suffix of `o` is a prefix of `pat`, no nonempty
proper suffix of `pat` is a prefix of `o`, and neither occurs inside the
other. -/
def presOK (o pat : List Char) : Bool :=
  !o.isEmpty && !pat.isEmpty &&
  (List.range o.length).all (fun i => !((o.drop i).isPrefixOf pat)) &&
  (List.range pat.length).all (fun j => j == 0 || !((pat.drop j).isPrefixOf o)) &&
  !(containsTok o pat) && !(containsTok pat o)

theorem replaceTok_keeps {old pat : List Char} (n : List Char)
    (h : presOK old pat = true) {s : List Char}
    (hs : containsTok pat s = true) :
    containsTok pat (replaceTok old n s) = true := by
  match old with
  | [] => simp [presOK] at h
  | o' :: os =>
    simp only [presOK, Bool.and_eq_true, Bool.not_eq_true', List.all_eq_true,
      List.mem_range, Bool.or_eq_true, beq_iff_eq, List.isEmpty_iff] at h
    obtain ⟨⟨⟨⟨⟨-, hpat⟩, k1⟩, k2⟩, k3⟩, k4⟩ := h
    have hpat' : pat ≠ [] := by simpa using hpat
    refine replaceAllNE_keeps_fuel o' os n pat hpat' ?_ ?_ k3 k4 s.length s le_rfl hs
    · intro i hi
      exact k1 i hi
    · intro j hj1 hj2
      rcases k2 j hj2 with h0 | hk
      · omega
      · exact hk

theorem applyList_keeps (prs : List (String × String)) (pat : List Char)
    (h : ∀ pr ∈ prs, presOK pr.1.toList pat = true) :
    ∀ s, containsTok pat s = true → containsTok pat (applyList prs s) = true := by
  induction prs with
  | nil => intro s hs; exact hs
  | cons pr rest ih =>
    intro s hs
    have h1 : containsTok pat (replaceTok pr.1.toList pr.2.toList s) = true :=
      replaceTok_keeps _ (h pr (List.mem_cons_self _ _)) hs
    simpa [applyList, List.foldl_cons] using
      ih (fun q hq => h q (List.mem_cons_of_mem _ hq)) _ h1

theorem replaceTok_creates {old : List Char} (n : List Char) (hold : old ≠ [])
    {s : List Char} (hs : containsTok old s = true) :
    containsTok n (replaceTok old n s) = true := by
  match old with
  | [] => exact absurd rfl hold
  | o' :: os => exact replaceAllNE_creates o' os n s hs

theorem replaceTok_heals {old : List Char} (ch : Char) (n' q : List Char)
    (hq : q ≠ [])
    (k1 : ∀ i, i < old.length → (old.drop i).isPrefixOf (q ++ [ch]) = false)
    (k2 : ∀ j, 1 ≤ j → j < q.length → ((q ++ [ch]).drop j).isPrefixOf old = false)
    (k3 : containsTok old (q ++ [ch]) = false)
    (k4 : containsTok (q ++ [ch]) old = false)
    {s : List Char} (hs : containsTok (q ++ [ch]) s = true) :
    containsTok (q ++ [ch]) (replaceTok old (ch :: n') s) = true := by
  match old with
  | [] =>
    rw [containsTok_nil_pat] at k3
    cases k3
  | o' :: os =>
    exact replaceAllNE_heals_fuel o' os ch n' q hq k1 k2 k3 k4 s.length s le_rfl hs

/-- When exactly one table pattern occurs in the content, occurring exactly
once, and its substitution re-creates no table pattern, the whole pass
performs exactly that one substitution. -/
theorem applyList_single (prs : List (String × String)) (tok ntok : String) :
    ∀ (c : List Char),
      (∀ pr ∈ prs, pr.1 = tok → pr.2 = ntok) →
      (tok, ntok) ∈ prs →
      countTok tok.toList c = 1 →
      (∀ pr ∈ prs, pr.1 ≠ tok → containsTok pr.1.toList c = false) →
      (∀ pr ∈ prs, containsTok pr.1.toList (replaceTok tok.toList ntok.toList c) = false) →
      totalRepl prs c = 1 ∧ applyList prs c = replaceTok tok.toList ntok.toList c := by
  induction prs with
  | nil =>
    intro c _ hmem _ _ _
    cases hmem
  | cons pr rest ih =>
    intro c hfun hmem h1 h2 h3
    by_cases hk : pr.1 = tok
    · have hv : pr.2 = ntok := hfun pr (List.mem_cons_self _ _) hk
      have hstep : replaceTok pr.1.toList pr.2.toList c
          = replaceTok tok.toList ntok.toList c := by rw [hk, hv]
      have hrest0 : ∀ q ∈ rest,
          containsTok q.1.toList (replaceTok tok.toList ntok.toList c) = false :=
        fun q hq => h3 q (List.mem_cons_of_mem _ hq)
      constructor
      · rw [totalRepl, hstep, hk, h1, totalRepl_eq_zero rest _ hrest0]
      · have : applyList (pr :: rest) c
            = applyList rest (replaceTok pr.1.toList pr.2.toList c) := by
          simp [applyList, List.foldl_cons]
        rw [this, hstep, applyList_id rest _ hrest0]
    · have hempty : containsTok pr.1.toList c = false :=
        h2 pr (List.mem_cons_self _ _) hk
      have hid : replaceTok pr.1.toList pr.2.toList c = c := replaceTok_id _ hempty
      have hcnt : countTok pr.1.toList c = 0 := countTok_eq_zero hempty
      have hmem' : (tok, ntok) ∈ rest := by
        rcases List.mem_cons.mp hmem with he | hr
        · exact absurd (congrArg Prod.fst he.symm) hk
        · exact hr
      have hrec := ih c (fun q hq hq1 => hfun q (List.mem_cons_of_mem _ hq) hq1) hmem'
        h1 (fun q hq => h2 q (List.mem_cons_of_mem _ hq))
        (fun q hq => h3 q (List.mem_cons_of_mem _ hq))
      constructor
      · rw [totalRepl, hcnt, hid]
        simpa using hrec.1
      · have : applyList (pr :: rest) c
            = applyList rest (replaceTok pr.1.toList pr.2.toList c) := by
          simp [applyList, List.foldl_cons]
        rw [this, hid]
        exact hrec.2

/-- The append-style fold of the discovery loop equals a filter-map. -/
theorem foldl_collect (g : DirEntry → String) (p : DirEntry → Bool) :
    ∀ (entries : List DirEntry) (acc : List String),
      entries.foldl (fun acc e => if p e then acc ++ [g e] else acc) acc
        = acc ++ (entries.filter p).map g := by
  intro entries
  induction entries with
  | nil => intro acc; simp
  | cons e es ih =>
    intro acc
    by_cases hp : p e
    · simp [List.foldl_cons, hp, ih, List.filter_cons]
    · simp [List.foldl_cons, hp, ih, List.filter_cons]

/-- `process_file` on a successful read, as a rewriting equation. -/
theorem process_file_ok (d : Disk) (p : String) (c : List Char)
    (hr : readFile d p = .ok c) :
    process_file d p
      = if c ≠ applyReplacements c then
          if d.writeOk p then
            ({ d with files := fun q =>
                 if q = p then some (applyReplacements c) else d.files q },
             [processingMsg p, "Updated " ++ p])
          else
            ({ d with files := fun q =>
                 if q = p then some (d.residue p) else d.files q },
             [processingMsg p, errorMsg p (d.writeMsg p)])
        else (d, [processingMsg p, "No changes in " ++ p]) := by
  unfold process_file
  rw [hr]

/-- `process_file` on a failed read, as a rewriting equation. -/
theorem process_file_err (d : Disk) (p : String) (msg : String)
    (hr : readFile d p = .err msg) :
    process_file d p = (d, [processingMsg p, errorMsg p msg]) := by
  unfold process_file
  rw [hr]

/-- One step of the driver loop, as a rewriting equation. -/
theorem runTargets_cons (d : Disk) (t : String) (rest : List String) :
    runTargets d (t :: rest)
      = ((runTargets (if (d.files t).isSome then process_file d t
                      else (d, ["File not found: " ++ t])).1 rest).1,
         (if (d.files t).isSome then process_file d t
          else (d, ["File not found: " ++ t])).2
           ++ (runTargets (if (d.files t).isSome then process_file d t
                           else (d, ["File not found: " ++ t])).1 rest).2) := rfl

/-- A concrete filesystem used to witness the claims: one file whose
content changes under the pass, one untouched, one unreadable, one
unwritable, and one holding the output of a previous pass. -/
def exampleDisk : Disk :=
  { files := fun q =>
      if q = "ok.rs" then some "let x = state.email_service.send();".toList
      else if q = "clean.rs" then some "let y = 1;".toList
      else if q = "readfail.rs" then some "let z = 2;".toList
      else if q = "writefail.rs" then some "state.sms_service".toList
      else if q = "second.rs" then some "state.system.email x".toList
      else none,
    readOk := fun q => q != "readfail.rs",
    readMsg := fun _ => "Permission denied",
    writeOk := fun q => q != "writefail.rs",
    writeMsg := fun _ => "Disk full",
    residue := fun _ => [] }

/-- C4: `process_file` writes the file if and only if the substitution pass
changed the content; unchanged content is reported as "no changes" with the
filesystem untouched, changed content overwrites the same path and is
reported as "updated". -/
theorem c4_write_iff_changed (d : Disk) (p : String) (c : List Char)
    (hr : readFile d p = .ok c) (hw : d.writeOk p = true) :
    (applyReplacements c = c →
       process_file d p = (d, [processingMsg p, "No changes in " ++ p])) ∧
    (applyReplacements c ≠ c →
       (process_file d p).2 = [processingMsg p, "Updated " ++ p] ∧
       (process_file d p).1.files p = some (applyReplacements c) ∧
       (∀ q, q ≠ p → (process_file d p).1.files q = d.files q) ∧
       (process_file d p).1.readOk = d.readOk ∧
       (process_file d p).1.writeOk = d.writeOk) := by
  constructor
  · intro he
    unfold process_file
    rw [hr]
    simp [he]
  · intro hne
    have hcond : c ≠ applyReplacements c := fun h => hne h.symm
    unfold process_file
    rw [hr]
    refine ⟨?_, ?_, ?_, ?_, ?_⟩
    · simp [hcond, hw]
    · simp [hcond, hw]
    · intro q hq
      simp [hcond, hw, hq]
    · simp [hcond, hw]
    · simp [hcond, hw]

/-- C4 witness at a concrete disk: both the unchanged and the changed
branch realized. -/
theorem c4_witness :
    (applyReplacements "let y = 1;".toList = "let y = 1;".toList →
       process_file exampleDisk "clean.rs"
         = (exampleDisk, [processingMsg "clean.rs", "No changes in " ++ "clean.rs"])) ∧
    ((process_file exampleDisk "ok.rs").2
       = [processingMsg "ok.rs", "Updated " ++ "ok.rs"] ∧
     (process_file exampleDisk "ok.rs").1.files "ok.rs"
       = some (applyReplacements "let x = state.email_service.send();".toList)) := by
  refine ⟨(c4_write_iff_changed exampleDisk "clean.rs" "let y = 1;".toList
    (by decide) (by decide)).1, ?_⟩
  have h := (c4_write_iff_changed exampleDisk "ok.rs"
    "let x = state.email_service.send();".toList (by decide) (by decide)).2
    (by decide)
  exact ⟨h.1, h.2.1⟩

/-- C5: a content in which no old-token occurs as a substring is left
unchanged by the substitution pass and the file on disk is untouched. -/
theorem c5_no_token_no_op (d : Disk) (p : String) (c : List Char)
    (hr : readFile d p = .ok c)
    (hno : ∀ pr ∈ replacements, containsTok pr.1.toList c = false) :
    applyReplacements c = c ∧
    process_file d p = (d, [processingMsg p, "No changes in " ++ p]) := by
  have hid : applyReplacements c = c := applyList_id replacements c hno
  refine ⟨hid, ?_⟩
  unfold process_file
  rw [hr]
  simp [hid]

/-- C5 witness: a concrete token-free file is reported unchanged and the
filesystem value is returned as is. -/
theorem c5_witness :
    applyReplacements "let y = 1;".toList = "let y = 1;".toList ∧
    process_file exampleDisk "clean.rs"
      = (exampleDisk, [processingMsg "clean.rs", "No changes in " ++ "clean.rs"]) :=
  c5_no_token_no_op exampleDisk "clean.rs" "let y = 1;".toList (by decide) (by decide)

/-- C6: a read failure is caught, logged with the path and message, leaves
the filesystem unchanged and the driver continues with the remaining
targets exactly as it would have without the failing file; a write failure
is likewise caught and logged and the driver continues from the resulting
filesystem. -/
theorem c6_failures_isolated (d : Disk) (p : String) (rest : List String) :
    (∀ c0, d.files p = some c0 → d.readOk p = false →
       process_file d p = (d, [processingMsg p, errorMsg p (d.readMsg p)]) ∧
       runTargets d (p :: rest)
         = ((runTargets d rest).1,
            [processingMsg p, errorMsg p (d.readMsg p)] ++ (runTargets d rest).2)) ∧
    (∀ c0, d.files p = some c0 → d.readOk p = true →
       applyReplacements c0 ≠ c0 → d.writeOk p = false →
       (process_file d p).2 = [processingMsg p, errorMsg p (d.writeMsg p)] ∧
       runTargets d (p :: rest)
         = ((runTargets (process_file d p).1 rest).1,
            (process_file d p).2 ++ (runTargets (process_file d p).1 rest).2)) := by
  constructor
  · intro c0 hf hro
    have hread : readFile d p = .err (d.readMsg p) := by
      unfold readFile
      rw [hf, hro]
      simp
    have hpf : process_file d p = (d, [processingMsg p, errorMsg p (d.readMsg p)]) := by
      unfold process_file
      rw [hread]
    refine ⟨hpf, ?_⟩
    rw [runTargets_cons]
    simp [hf, hpf]
  · intro c0 hf hro hch hwo
    have hread : readFile d p = .ok c0 := by
      unfold readFile
      rw [hf, hro]
      simp
    have hcond : c0 ≠ applyReplacements c0 := fun h => hch h.symm
    have hpf2 : (process_file d p).2 = [processingMsg p, errorMsg p (d.writeMsg p)] := by
      unfold process_file
      rw [hread]
      simp [hcond, hwo]
    refine ⟨hpf2, ?_⟩
    rw [runTargets_cons]
    simp [hf]

/-- C6 witness: a concrete unreadable file and a concrete unwritable file,
each logged and each leaving the driver to continue over the remaining
targets. -/
theorem c6_witness :
    (process_file exampleDisk "readfail.rs"
       = (exampleDisk, [processingMsg "readfail.rs",
                        errorMsg "readfail.rs" "Permission denied"]) ∧
     runTargets exampleDisk ["readfail.rs", "clean.rs"]
       = ((runTargets exampleDisk ["clean.rs"]).1,
          [processingMsg "readfail.rs", errorMsg "readfail.rs" "Permission denied"]
            ++ (runTargets exampleDisk ["clean.rs"]).2)) ∧
    ((process_file exampleDisk "writefail.rs").2
       = [processingMsg "writefail.rs", errorMsg "writefail.rs" "Disk full"] ∧
     runTargets exampleDisk ["writefail.rs", "clean.rs"]
       = ((runTargets (process_file exampleDisk "writefail.rs").1 ["clean.rs"]).1,
          (process_file exampleDisk "writefail.rs").2
            ++ (runTargets (process_file exampleDisk "writefail.rs").1 ["clean.rs"]).2)) := by
  constructor
  · have h := (c6_failures_isolated exampleDisk "readfail.rs" ["clean.rs"]).1
      "let z = 2;".toList (by decide) (by decide)
    exact ⟨h.1, h.2⟩
  · have h := (c6_failures_isolated exampleDisk "writefail.rs" ["clean.rs"]).2
      "state.sms_service".toList (by decide) (by decide) (by decide) (by decide)
    exact ⟨h.1, h.2⟩

/-- C7: a missing path yields only a "File not found" report and the driver
continues with the rest of the list; an existing path is handed to
`process_file` and the driver continues from its result. -/
theorem c7_missing_skipped (d : Disk) (p : String) (rest : List String) :
    (d.files p = none →
       runTargets d (p :: rest)
         = ((runTargets d rest).1,
            ("File not found: " ++ p) :: (runTargets d rest).2)) ∧
    ((d.files p).isSome = true →
       runTargets d (p :: rest)
         = ((runTargets (process_file d p).1 rest).1,
            (process_file d p).2 ++ (runTargets (process_file d p).1 rest).2)) := by
  constructor
  · intro hnone
    rw [runTargets_cons]
    simp [hnone]
  · intro hsome
    rw [runTargets_cons]
    simp [hsome]

/-- C7 witness: one missing path reported and skipped, one existing path
processed. -/
theorem c7_witness :
    runTargets exampleDisk ["missing.rs", "clean.rs"]
      = ((runTargets exampleDisk ["clean.rs"]).1,
         ("File not found: " ++ "missing.rs") :: (runTargets exampleDisk ["clean.rs"]).2) ∧
    runTargets exampleDisk ["clean.rs"]
      = ((runTargets (process_file exampleDisk "clean.rs").1 []).1,
         (process_file exampleDisk "clean.rs").2
           ++ (runTargets (process_file exampleDisk "clean.rs").1 []).2) :=
  ⟨(c7_missing_skipped exampleDisk "missing.rs" ["clean.rs"]).1 (by decide),
   (c7_missing_skipped exampleDisk "clean.rs" []).2 (by decide)⟩

/-- C9: the on-disk content can only change when the whole content was read
and decoded successfully and the substitution pass produced different
content; in particular a failed open/read/decode leaves the disk exactly as
it was. -/
theorem c9_write_needs_successful_read (d : Disk) (p : String) :
    (∀ msg, readFile d p = .err msg → (process_file d p).1 = d) ∧
    (∀ q, (process_file d p).1.files q ≠ d.files q →
       ∃ c, readFile d p = .ok c ∧ applyReplacements c ≠ c ∧ q = p) := by
  constructor
  · intro msg hmsg
    unfold process_file
    rw [hmsg]
  · intro q hq
    cases hro : readFile d p with
    | err m =>
      rw [process_file_err d p m hro] at hq
      exact absurd rfl hq
    | ok c =>
      rw [process_file_ok d p c hro] at hq
      by_cases hch : c = applyReplacements c
      · rw [if_neg (fun hcc : c ≠ applyReplacements c => hcc hch)] at hq
        exact absurd rfl hq
      · refine ⟨c, rfl, fun h => hch h.symm, ?_⟩
        by_cases hqp : q = p
        · exact hqp
        · exfalso
          apply hq
          rw [if_pos hch]
          by_cases hw : d.writeOk p
          · simp [hw, hqp]
          · simp [hw, hqp]

/-- C9 witness: a concrete read failure leaves the disk unchanged, and a
concrete content change certifies a successful read with changed content. -/
theorem c9_witness :
    (process_file exampleDisk "readfail.rs").1 = exampleDisk ∧
    (∃ c, readFile exampleDisk "ok.rs" = .ok c ∧ applyReplacements c ≠ c ∧
      "ok.rs" = "ok.rs") :=
  ⟨(c9_write_needs_successful_read exampleDisk "readfail.rs").1
      "Permission denied" (by decide),
   (c9_write_needs_successful_read exampleDisk "ok.rs").2 "ok.rs" (by decide)⟩

/-- C8: the target list is the literal legacy path followed by exactly the
immediate `.rs`-suffixed directory entries joined with the directory, in
enumeration order; the entry kind (regular file or not) is never consulted,
and with no matching entry the list is just the literal path. -/
theorem c8_targets_shape (entries : List DirEntry) :
    targets entries
      = legacyPath ::
          (entries.filter (fun e => strEndsWith e.name ".rs")).map
            (fun e => joinPath handlers_dir e.name) ∧
    ((∀ e ∈ entries, strEndsWith e.name ".rs" = false) → targets entries = [legacyPath]) ∧
    (∀ entries2 : List DirEntry,
       entries.map DirEntry.name = entries2.map DirEntry.name →
       targets entries = targets entries2) := by
  have hshape : ∀ es : List DirEntry,
      targets es
        = legacyPath ::
            (es.filter (fun e => strEndsWith e.name ".rs")).map
              (fun e => joinPath handlers_dir e.name) := by
    intro es
    unfold targets
    rw [foldl_collect (fun e => joinPath handlers_dir e.name)
      (fun e => strEndsWith e.name ".rs") es [legacyPath]]
    rfl
  have hnames : ∀ es : List DirEntry,
      (es.filter (fun e => strEndsWith e.name ".rs")).map
          (fun e => joinPath handlers_dir e.name)
        = ((es.map DirEntry.name).filter (fun nm => strEndsWith nm ".rs")).map
            (fun nm => joinPath handlers_dir nm) := by
    intro es
    induction es with
    | nil => rfl
    | cons e es ih =>
      by_cases he : strEndsWith e.name ".rs"
      · simp [List.filter_cons, he, ih]
      · simp [List.filter_cons, he, ih]
  refine ⟨hshape entries, ?_, ?_⟩
  · intro hnone
    rw [hshape entries, List.filter_eq_nil_iff.mpr (fun e he => by simp [hnone e he])]
    rfl
  · intro entries2 heq
    rw [hshape entries, hshape entries2, hnames entries, hnames entries2, heq]

/-- C8 witness: a directory listing containing a matching file, a matching
directory (kept, since the kind is not checked), a non-matching entry, and
a name-equal listing with different kinds; plus the empty-match case. -/
theorem c8_witness :
    targets [⟨"a.rs", true⟩, ⟨"subdir.rs", false⟩, ⟨"notes.txt", true⟩]
      = [legacyPath, joinPath handlers_dir "a.rs", joinPath handlers_dir "subdir.rs"] ∧
    targets [⟨"notes.txt", true⟩] = [legacyPath] ∧
    targets [⟨"a.rs", true⟩, ⟨"subdir.rs", false⟩, ⟨"notes.txt", true⟩]
      = targets [⟨"a.rs", false⟩, ⟨"subdir.rs", true⟩, ⟨"notes.txt", false⟩] := by
  refine ⟨?_, ?_, ?_⟩
  · rw [(c8_targets_shape _).1]
    decide
  · exact (c8_targets_shape _).2.1 (by decide)
  · exact (c8_targets_shape _).2.2 _ (by decide)

/-- C1 counterexample: a content on which the pass is not idempotent.  On
`"state.sms_servicetate.email_service"` the sms substitution splices a new
`"state.email_service"` occurrence into existence after the email step has
already run, so the first pass's output still contains an old-token and a
second run changes the content again. -/
theorem c1_counterexample :
    containsTok "state.email_service".toList
        (applyReplacements "state.sms_servicetate.email_service".toList) = true ∧
    applyReplacements (applyReplacements "state.sms_servicetate.email_service".toList)
      ≠ applyReplacements "state.sms_servicetate.email_service".toList := by
  exact ⟨by decide, by decide⟩

/-- C1 (amended): when the output of the first pass contains no old-token,
a second run changes nothing and reports "no changes". -/
theorem c1_second_run_no_changes (d : Disk) (p : String) (c : List Char)
    (hr : readFile d p = .ok (applyReplacements c))
    (hclean : ∀ pr ∈ replacements,
      containsTok pr.1.toList (applyReplacements c) = false) :
    applyReplacements (applyReplacements c) = applyReplacements c ∧
    process_file d p = (d, [processingMsg p, "No changes in " ++ p]) := by
  have hid : applyReplacements (applyReplacements c) = applyReplacements c :=
    applyList_id replacements _ hclean
  refine ⟨hid, ?_⟩
  rw [process_file_ok d p (applyReplacements c) hr,
    if_neg (fun hcc : applyReplacements c ≠ applyReplacements (applyReplacements c) =>
      hcc hid.symm)]

/-- C1 witness: a disk holding the output of a first pass over
`"state.email_service x"`; the second run reports "no changes". -/
theorem c1_witness :
    applyReplacements (applyReplacements "state.email_service x".toList)
      = applyReplacements "state.email_service x".toList ∧
    process_file exampleDisk "second.rs"
      = (exampleDisk, [processingMsg "second.rs", "No changes in " ++ "second.rs"]) :=
  c1_second_run_no_changes exampleDisk "second.rs" "state.email_service x".toList
    (by decide) (by decide)

/-- C2 counterexample: iteration order is not inconsequential for every
input.  On `"state.sms_servicetate.audit_service"` the sms substitution
creates a `"state.audit_service"` occurrence; in table order the audit step
has already run, in reverse order (a permutation of the table) it has not,
and the two final contents differ. -/
theorem c2_counterexample :
    replacements.reverse.Perm replacements ∧
    applyList replacements.reverse "state.sms_servicetate.audit_service".toList
      ≠ applyList replacements "state.sms_servicetate.audit_service".toList :=
  ⟨List.reverse_perm replacements, by decide⟩

/-- C2 (amended): no old-token of the table is a substring of another
old-token.  (The claimed consequence — that therefore every iteration order
gives the same result on every input — does not follow and is refuted by
the counterexample.) -/
theorem c2_no_token_substring (pr qr : String × String)
    (hp : pr ∈ replacements) (hq : qr ∈ replacements) (hne : pr ≠ qr) :
    containsTok pr.1.toList qr.1.toList = false := by
  have hall : ∀ p2 ∈ replacements, ∀ q2 ∈ replacements,
      p2 ≠ q2 → containsTok p2.1.toList q2.1.toList = false := by decide
  exact hall pr hp qr hq hne

/-- C2 witness: the first two table entries, neither a substring of the
other. -/
theorem c2_witness :
    containsTok "state.product_service".toList "state.inventory_service".toList
      = false :=
  c2_no_token_substring ("state.product_service", "state.commerce.product")
    ("state.inventory_service", "state.commerce.inventory")
    (by decide) (by decide) (by decide)

/-- C3 counterexample: `"state.transaction_servicetate.email_service"`
contains exactly one occurrence of exactly one old-token
(`"state.transaction_service"`), yet the pass performs two substitutions —
the first substitution splices a `"state.email_service"` occurrence into
existence — and the result differs from the content with just the single
occurrence replaced. -/
theorem c3_counterexample :
    countTok "state.transaction_service".toList
        "state.transaction_servicetate.email_service".toList = 1 ∧
    (replacements.all fun pr =>
        pr.1 == "state.transaction_service"
          || !(containsTok pr.1.toList
                "state.transaction_servicetate.email_service".toList)) = true ∧
    totalRepl replacements "state.transaction_servicetate.email_service".toList = 2 ∧
    applyReplacements "state.transaction_servicetate.email_service".toList
      ≠ replaceTok "state.transaction_service".toList
          "state.commerce.transactions".toList
          "state.transaction_servicetate.email_service".toList := by
  exact ⟨by decide, by decide, by decide, by decide⟩

/-- C3 (amended): for a content with exactly one occurrence of exactly one
old-token, provided the substituted result contains no old-token (the
substitution splices no new occurrence into existence), exactly one
substitution is performed and the written result is the original content
with that single occurrence replaced, byte-for-byte identical elsewhere. -/
theorem c3_one_occurrence_single_substitution (tok ntok : String) (c : List Char)
    (hmem : (tok, ntok) ∈ replacements)
    (h1 : countTok tok.toList c = 1)
    (h2 : ∀ pr ∈ replacements, pr.1 ≠ tok → containsTok pr.1.toList c = false)
    (h3 : ∀ pr ∈ replacements,
      containsTok pr.1.toList (replaceTok tok.toList ntok.toList c) = false) :
    totalRepl replacements c = 1 ∧
    ∃ u w, c = u ++ tok.toList ++ w ∧
      applyReplacements c = u ++ ntok.toList ++ w := by
  have hfun : ∀ pr ∈ replacements, pr.1 = tok → pr.2 = ntok := by
    have hkeys : ∀ p2 ∈ replacements, ∀ q2 ∈ replacements,
        p2.1 = q2.1 → p2.2 = q2.2 := by decide
    intro pr hpr h
    exact hkeys pr hpr (tok, ntok) hmem h
  have hmain := applyList_single replacements tok ntok c hfun hmem h1 h2 h3
  refine ⟨hmain.1, ?_⟩
  have hne : tok.toList ≠ [] := by
    have hnon : ∀ pr ∈ replacements, pr.1.toList ≠ [] := by decide
    exact hnon (tok, ntok) hmem
  cases htl : tok.toList with
  | nil => exact absurd htl hne
  | cons o' os =>
    have h1' : countOccsNE o' os c = 1 := by
      rw [htl] at h1
      exact h1
    rcases countOccsNE_one o' os ntok.toList c h1' with ⟨u, w, hsp, hrep, -⟩
    refine ⟨u, w, hsp, ?_⟩
    have h4 : applyReplacements c = replaceTok (o' :: os) ntok.toList c := by
      have h5 := hmain.2
      rw [htl] at h5
      exact h5
    rw [h4]
    exact hrep

/-- C3 witness: one occurrence of the email token replaced in place. -/
theorem c3_witness :
    totalRepl replacements "a state.email_service b".toList = 1 ∧
    ∃ u w, "a state.email_service b".toList
        = u ++ "state.email_service".toList ++ w ∧
      applyReplacements "a state.email_service b".toList
        = u ++ "state.system.email".toList ++ w :=
  c3_one_occurrence_single_substitution "state.email_service" "state.system.email"
    "a state.email_service b".toList (by decide) (by decide) (by decide) (by decide)

/-- C10: the pass maps the example content to the expected output, and for
every content containing both the email and the sms old-token the single
pass replaces them: the output contains `"state.system.email"` and
`"state.system.sms"`.  (For the sms replacement the notification step may
consume its trailing `'s'`, but the inserted replacement starts with `'s'`
again, so the string is still present.) -/
theorem c10_examples_and_both_replaced (c : List Char)
    (he : containsTok "state.email_service".toList c = true)
    (hsm : containsTok "state.sms_service".toList c = true) :
    applyReplacements "let x = state.product_service.get();".toList
      = "let x = state.commerce.product.get();".toList ∧
    containsTok "state.system.email".toList (applyReplacements c) = true ∧
    containsTok "state.system.sms".toList (applyReplacements c) = true := by
  have hsplitR : replacements
      = replacements.take 22
        ++ [("state.email_service", "state.system.email"),
            ("state.sms_service", "state.system.sms"),
            ("state.notification_scheduler", "state.system.notification_scheduler")] :=
    rfl
  have hpass : applyReplacements c
      = replaceTok "state.notification_scheduler".toList
          "state.system.notification_scheduler".toList
          (replaceTok "state.sms_service".toList "state.system.sms".toList
            (replaceTok "state.email_service".toList "state.system.email".toList
              (applyList (replacements.take 22) c))) := by
    show applyList replacements c = _
    conv_lhs => rw [hsplitR]
    simp only [applyList, List.foldl_append, List.foldl_cons, List.foldl_nil]
  have he1 : containsTok "state.email_service".toList
      (applyList (replacements.take 22) c) = true :=
    applyList_keeps _ _ (by decide) c he
  have hs1 : containsTok "state.sms_service".toList
      (applyList (replacements.take 22) c) = true :=
    applyList_keeps _ _ (by decide) c hsm
  have he2 : containsTok "state.system.email".toList
      (replaceTok "state.email_service".toList "state.system.email".toList
        (applyList (replacements.take 22) c)) = true :=
    replaceTok_creates _ (by decide) he1
  have hs2 : containsTok "state.sms_service".toList
      (replaceTok "state.email_service".toList "state.system.email".toList
        (applyList (replacements.take 22) c)) = true :=
    replaceTok_keeps _ (by decide) hs1
  have he3 : containsTok "state.system.email".toList
      (replaceTok "state.sms_service".toList "state.system.sms".toList
        (replaceTok "state.email_service".toList "state.system.email".toList
          (applyList (replacements.take 22) c))) = true :=
    replaceTok_keeps _ (by decide) he2
  have hs3 : containsTok "state.system.sms".toList
      (replaceTok "state.sms_service".toList "state.system.sms".toList
        (replaceTok "state.email_service".toList "state.system.email".toList
          (applyList (replacements.take 22) c))) = true :=
    replaceTok_creates _ (by decide) hs2
  have he4 : containsTok "state.system.email".toList
      (replaceTok "state.notification_scheduler".toList
        "state.system.notification_scheduler".toList
        (replaceTok "state.sms_service".toList "state.system.sms".toList
          (replaceTok "state.email_service".toList "state.system.email".toList
            (applyList (replacements.take 22) c)))) = true :=
    replaceTok_keeps _ (by decide) he3
  have hs4 : containsTok "state.system.sms".toList
      (replaceTok "state.notification_scheduler".toList
        "state.system.notification_scheduler".toList
        (replaceTok "state.sms_service".toList "state.system.sms".toList
          (replaceTok "state.email_service".toList "state.system.email".toList
            (applyList (replacements.take 22) c)))) = true := by
    exact replaceTok_heals 's' "tate.system.notification_scheduler".toList
      "state.system.sm".toList (by decide) (by decide)
      (fun j h1 h2 =>
        (by decide : ∀ j, j < "state.system.sm".toList.length → 1 ≤ j →
          ((("state.system.sm".toList ++ ['s']).drop j).isPrefixOf
            "state.notification_scheduler".toList) = false) j h2 h1)
      (by decide) (by decide) hs3
  refine ⟨by decide, ?_, ?_⟩
  · rw [hpass]
    exact he4
  · rw [hpass]
    exact hs4

/-- C10 witness: a concrete content holding both tokens. -/
theorem c10_witness :
    applyReplacements "let x = state.product_service.get();".toList
      = "let x = state.commerce.product.get();".toList ∧
    containsTok "state.system.email".toList
      (applyReplacements "state.email_service state.sms_service".toList) = true ∧
    containsTok "state.system.sms".toList
      (applyReplacements "state.email_service state.sms_service".toList) = true :=
  c10_examples_and_both_replaced "state.email_service state.sms_service".toList
    (by decide) (by decide)
